import Mathlib

/-!
Shallow embedding of `src/infallible_allocation.rs` (the `check_crate` method of
the `InfallibleAllocation` lint pass) and proofs about it.

Modelling conventions:
* `Instance` stands for `rustc_middle::ty::Instance`.  Its fields record
  exactly the observations `check_crate` makes of an instance:
  `name` is `tcx.def_path_str(def_id)`, `fullName` is
  `tcx.def_path_str_with_substs(def_id, substs)`, `isLocal` is
  `def_id().is_local()`, `isGeneric` is
  `substs.non_erasable_generics().next().is_some()`, `krate` is
  `tcx.original_crate_name(def_id().krate)` and `defSpan` is
  `tcx.def_span(def_id)`.  The `id` field keeps distinct instances distinct
  even when all observations coincide (an `Instance` is a `(def_id, substs)`
  pair in the source).
* `FxHashMap<Instance, Vec<Spanned<Instance>>>` is embedded as an association
  list with the `entry`-style update semantics of the source
  (`pushEntry` / `ensureKey`); `FxHashSet<Instance>` as `Finset Instance`.
* The `Vec` work queue of the propagation loop (push/pop at the end) is
  embedded as a `List` whose HEAD is the top of the stack, so a sequence of
  `Vec::push`es appears as prepending the reversed sequence.
* The source's loops are embedded as structural recursions; the propagation
  loop and the two diagnostic walks take an explicit fuel argument that is
  instantiated with a provably sufficient bound (`propagate_run` below shows
  the bound suffices), keeping every definition executable by `decide`.
* The source memoizes `tcx.def_span(accessor.def_id())` in a local
  `Option<Span>` (`def_span.get_or_insert_with`); the memoization has no
  observable effect, so the embedding uses the value directly.
-/

namespace Klint

/-- Source span; `dummy` models `Span::is_dummy() = true` (spans coming from
const evaluation, cf. lines 54-60 of the source). -/
inductive Span where
  | dummy : Span
  | pos : Nat → Span
deriving DecidableEq, Repr

def Span.isDummy : Span → Bool
  | Span.dummy => true
  | Span.pos _ => false

/-- Embedding of `rustc_middle::ty::Instance` (see file header). -/
structure Instance where
  id : Nat
  name : String
  fullName : String
  krate : String
  isLocal : Bool
  isGeneric : Bool
  defSpan : Span
deriving DecidableEq, Repr

/-- Embedding of `rustc_span::source_map::Spanned<T>`. -/
structure Spanned (α : Type) where
  node : α
  span : Span
deriving DecidableEq, Repr

/-- Embedding of `rustc_middle::mir::mono::MonoItem`: a function, a static, or
anything else (the `_ => return` arm of the two matches, e.g. `GlobalAsm`). -/
inductive MonoItem where
  | fn : Instance → MonoItem
  | staticItem : Instance → MonoItem
  | otherItem : MonoItem
deriving DecidableEq, Repr

/-- The conversion performed by both `match` expressions in lines 36-40 and
48-52: `MonoItem::Static(s) => Instance::mono(tcx, s)`, `MonoItem::Fn(v) => v`,
everything else aborts the closure (`none`). -/
def monoInstance : MonoItem → Option Instance
  | MonoItem.fn v => some v
  | MonoItem.staticItem s => some s
  | MonoItem.otherItem => none

/-- Embedding of `FxHashMap<Instance, Vec<Spanned<Instance>>>` as an
association list. -/
abbrev Graph := List (Instance × List (Spanned Instance))

/-- `m.get(&k).map(|v| &**v).unwrap_or(&[])`: the stored list of `k`, or `[]`. -/
def lookupList : Graph → Instance → List (Spanned Instance)
  | [], _ => []
  | p :: rest, k => if p.1 = k then p.2 else lookupList rest k

/-- `m.contains_key(&k)`. -/
def hasKey : Graph → Instance → Bool
  | [], _ => false
  | p :: rest, k => if p.1 = k then true else hasKey rest k

/-- `m.entry(k).or_default().push(v)`: append `v` to `k`'s vector, creating the
entry if absent. -/
def pushEntry : Graph → Instance → Spanned Instance → Graph
  | [], k, v => [(k, [v])]
  | p :: rest, k, v =>
    if p.1 = k then (p.1, p.2 ++ [v]) :: rest else p :: pushEntry rest k v

/-- `m.entry(k).or_insert_with(Vec::with_capacity(..))` when the result is not
immediately pushed to: make sure `k` has an entry (the capacity argument is a
performance hint with no observable effect). -/
def ensureKey (m : Graph) (k : Instance) : Graph :=
  if hasKey m k then m else m ++ [(k, [])]

/-- Remove the (first) entry of key `k`; used to state that a local unit's
incoming-edge record is irrelevant to propagation (claim C5). -/
def eraseKey : Graph → Instance → Graph
  | [], _ => []
  | p :: rest, k => if p.1 = k then rest else p :: eraseKey rest k

/-- All stored edge occurrences of a graph, as (key, node, span) triples. -/
def occs (m : Graph) : List (Instance × Instance × Span) :=
  m.flatMap fun p => p.2.map fun s => (p.1, s.node, s.span)

/-- Total number of stored edge occurrences. -/
def totalLen (m : Graph) : Nat :=
  (m.map fun p => p.2.length).sum

/-- Is `pat` a prefix of `s` (on character lists)? -/
def charsPrefix : List Char → List Char → Bool
  | [], _ => true
  | _ :: _, [] => false
  | a :: as, b :: bs => a = b && charsPrefix as bs

/-- Does `s` contain `pat` as a contiguous sublist? -/
def charsContains : List Char → List Char → Bool
  | [], pat => charsPrefix pat []
  | s@(_ :: t), pat => charsPrefix pat s || charsContains t pat

/-- Embedding of Rust's `str::contains(pat)` (substring test), used for
`name.contains("assume_fallible")` on line 80. -/
def containsSub (s pat : String) : Bool :=
  charsContains s.data pat.data

/-- The fixed allowlist match of lines 88-100: fallible allocation functions
(they return null / a `Result` on failure). -/
def isAllowName (n : String) : Bool :=
  n = "alloc::alloc::__rust_alloc" ||
  n = "alloc::alloc::__rust_alloc_zeroed" ||
  n = "alloc::alloc::__rust_realloc" ||
  n = "alloc::alloc::__rust_dealloc" ||
  n = "alloc::string::String::try_reserve" ||
  n = "alloc::string::String::try_reserve_exact"

/-- Inner loop of the graph builder (lines 47-70): process one accessor's
accessee list, pushing each edge into both indices.  An accessee that is
neither a function nor a static aborts the whole closure (`return`), keeping
everything already pushed.  The span synthesis of lines 56-60 replaces a dummy
span by the accessor's definition span. -/
def processAccessees (accessor : Instance) :
    Graph → Graph → List (Spanned MonoItem) → Graph × Graph
  | fwd, bwd, [] => (fwd, bwd)
  | fwd, bwd, a :: rest =>
    match monoInstance a.node with
    | none => (fwd, bwd)
    | some accesseeNode =>
      let span := if a.span.isDummy then accessor.defSpan else a.span
      processAccessees accessor
        (pushEntry fwd accessor { node := accesseeNode, span := span })
        (pushEntry bwd accesseeNode { node := accessor, span := span })
        rest

/-- Outer loop of the graph builder (lines 35-71, `iter_accesses`): for each
accessor, convert it (aborting the closure on a non-fn/non-static accessor
before touching the maps), create its forward entry, then process its
accessees. -/
def buildGraphAux : List (MonoItem × List (Spanned MonoItem)) → Graph → Graph → Graph × Graph
  | [], fwd, bwd => (fwd, bwd)
  | (acc, accessees) :: rest, fwd, bwd =>
    match monoInstance acc with
    | none => buildGraphAux rest fwd bwd
    | some accessor =>
      let r := processAccessees accessor (ensureKey fwd accessor) bwd accessees
      buildGraphAux rest r.1 r.2

/-- Lines 31-71: build the forward and backward dependency graphs from the
collector's access map. -/
def buildGraph (accessMap : List (MonoItem × List (Spanned MonoItem))) : Graph × Graph :=
  buildGraphAux accessMap [] []

/-- One iteration of the "find all fallible functions" loop (lines 76-101),
for one key of `backward`: a name containing `"assume_fallible"` whitelists
the unit and every node of its FORWARD list (the units it calls, line 82);
otherwise an exact allowlist match whitelists the unit itself.  Both insert
into `visited`. -/
def classifyStep (fwd : Graph) (vis : Finset Instance)
    (p : Instance × List (Spanned Instance)) : Finset Instance :=
  if containsSub p.1.name "assume_fallible" then
    (lookupList fwd p.1).foldl (fun v s => insert s.node v) (insert p.1 vis)
  else if isAllowName p.1.name then insert p.1 vis
  else vis

/-- Lines 74-101: run `classifyStep` over every key of `backward`. -/
def classifySeeds (fwd bwd : Graph) : Finset Instance :=
  bwd.foldl (classifyStep fwd) ∅

/-- One iteration of the seeding loop (lines 105-118), for one key of
`backward`: queue it if it has no `forward` entry and originates from the
`alloc` crate (`Vec::push` appends at the end). -/
def seedStep (fwd : Graph) (q : List Instance)
    (p : Instance × List (Spanned Instance)) : List Instance :=
  if hasKey fwd p.1 then q
  else if p.1.krate = "alloc" then q ++ [p.1] else q

/-- Lines 103-118: run `seedStep` over every key of `backward`. -/
def seedQueue (fwd bwd : Graph) : List Instance :=
  bwd.foldl (seedStep fwd) []

/-- Lines 120-137: the propagation worklist loop.  The `Vec` stack is a list
with its head as the top, so pushing a caller list appends it reversed.  The
`fuel` argument bounds the number of iterations; `propagate_run` below proves
that `wl.length + totalLen bw` iterations always reach the empty worklist, and
`analyze` instantiates the fuel with that bound. -/
def propagate (bw : Graph) : Nat → List Instance → Finset Instance → Finset Instance →
    Finset Instance × Finset Instance
  | 0, _, vis, inf => (inf, vis)
  | _ + 1, [], vis, inf => (inf, vis)
  | fuel + 1, w :: rest, vis, inf =>
    if w ∈ vis then propagate bw fuel rest vis inf
    else
      let vis' := insert w vis
      let inf' := insert w inf
      if w.isLocal then propagate bw fuel rest vis' inf'
      else propagate bw fuel (((lookupList bw w).map (·.node)).reverse ++ rest) vis' inf'

/-- Lines 175-202 (ancestor trace): while the current caller is generic, walk
to the first unvisited incoming edge, emitting a "which is called from" note.
Fuel-bounded; `totalLen bwd + 1` steps always suffice since every step visits a
previously unvisited node stored in some backward list. -/
def ancWalk (bwd : Graph) : Nat → Finset Instance → Instance →
    List (Span × String) × Finset Instance
  | 0, vis, _ => ([], vis)
  | fuel + 1, vis, caller =>
    if caller.isGeneric then
      match (lookupList bwd caller).find? (fun x => !decide (x.node ∈ vis)) with
      | none => ([], vis)
      | some sc =>
        let r := ancWalk bwd fuel (insert sc.node vis) sc.node
        ((sc.span, "which is called from `" ++ sc.node.fullName ++ "`") :: r.1, r.2)
    else ([], vis)

/-- Lines 204-235 (descendant trace): starting from the reported accessee,
walk to the first outgoing edge whose target is tainted and unvisited, emitting
a "calls into" note; after the first note the lead-in message becomes
`"which"`.  Returns the notes and the final lead-in message (used by the
closing note on line 237). -/
def descWalk (fwd : Graph) (inf : Finset Instance) : Nat → Finset Instance → Instance →
    String → List (Span × String) × String
  | 0, _, _, msg => ([], msg)
  | fuel + 1, vis, callee, msg =>
    match (lookupList fwd callee).find?
        (fun x => decide (x.node ∈ inf) && !decide (x.node ∈ vis)) with
    | none => ([], msg)
    | some cc =>
      let r := descWalk fwd inf fuel (insert cc.node vis) cc.node "which"
      ((cc.span, msg ++ " calls into `" ++ cc.node.fullName ++ "`") :: r.1, r.2)

/-- One emitted diagnostic (lines 154-239): primary message, primary span,
ancestor-chain notes, descendant-chain notes, closing note. -/
structure Diagnostic where
  accessor : Instance
  accessee : Instance
  span : Span
  mainMsg : String
  ancNotes : List (Span × String)
  descNotes : List (Span × String)
  closing : String
deriving DecidableEq, Repr

/-- Lines 154-239: build the diagnostic for one offending edge. -/
def buildDiag (fwd bwd : Graph) (inf : Finset Instance) (accessor : Instance)
    (item : Spanned Instance) : Diagnostic :=
  let genericNote :=
    if accessor.isGeneric then
      " when the caller is monomorphized as `" ++ accessor.fullName ++ "`"
    else ""
  let accesseePath := item.node.fullName
  let vis0 : Finset Instance := insert item.node (insert accessor ∅)
  let anc := ancWalk bwd (totalLen bwd + 1) vis0 accessor
  let desc := descWalk fwd inf (totalLen fwd + 1) anc.2 item.node
    ("`" ++ accesseePath ++ "` is determined to be infallible because it")
  { accessor := accessor
    accessee := item.node
    span := item.span
    mainMsg := "`" ++ accesseePath ++ "` can perform infallible allocation" ++ genericNote
    ancNotes := anc.1
    descNotes := desc.1
    closing := desc.2 ++ " may call alloc_error_handler" }

/-- Lines 139-242: the reporting loop.  For every forward entry whose accessor
is local and tainted, emit one diagnostic per accessee that is external and
tainted, anchored at the edge's span. -/
def reportDiags (fwd bwd : Graph) (inf : Finset Instance) : List Diagnostic :=
  fwd.flatMap fun p =>
    if !p.1.isLocal then []
    else if p.1 ∉ inf then []
    else p.2.filterMap fun item =>
      if !item.node.isLocal && decide (item.node ∈ inf) then
        some (buildDiag fwd bwd inf p.1 item)
      else none

/-- The observable state of one `check_crate` run. -/
structure AnalysisResult where
  forward : Graph
  backward : Graph
  seedsVisited : Finset Instance
  workQueue : List Instance
  infallible : Finset Instance
  visitedFinal : Finset Instance
  diags : List Diagnostic

/-- The whole of `check_crate`, lines 20-243: build the graphs, classify
seeds, propagate, report.  The initial worklist is the seed queue with its
last-pushed element on top (`List.reverse`, see the stack convention above). -/
def analyze (accessMap : List (MonoItem × List (Spanned MonoItem))) : AnalysisResult :=
  let fb := buildGraph accessMap
  let vis := classifySeeds fb.1 fb.2
  let q := seedQueue fb.1 fb.2
  let r := propagate fb.2 (q.length + totalLen fb.2) q.reverse vis ∅
  { forward := fb.1
    backward := fb.2
    seedsVisited := vis
    workQueue := q
    infallible := r.1
    visitedFinal := r.2
    diags := reportDiags fb.1 fb.2 r.1 }

/-! Nondeterministic presentation of the propagation loop, used to reason
about pop-order insensitivity (claim C8): a step pops an arbitrary element of
the worklist and, on expansion, pushes the callers in an arbitrary order. -/

/-- State of the propagation loop: worklist, visited set, taint set. -/
structure PState where
  wl : List Instance
  vis : Finset Instance
  inf : Finset Instance

/-- One iteration of the propagation loop of lines 121-137, with the popped
element chosen arbitrarily (any pop order) and, when a non-local unit is
tainted, its recorded callers pushed in an arbitrary order. -/
inductive PropStep (bw : Graph) : PState → PState → Prop
  | skip (l₁ l₂ : List Instance) (w : Instance) (vis inf : Finset Instance) :
      w ∈ vis →
      PropStep bw ⟨l₁ ++ w :: l₂, vis, inf⟩ ⟨l₁ ++ l₂, vis, inf⟩
  | localStop (l₁ l₂ : List Instance) (w : Instance) (vis inf : Finset Instance) :
      w ∉ vis → w.isLocal = true →
      PropStep bw ⟨l₁ ++ w :: l₂, vis, inf⟩ ⟨l₁ ++ l₂, insert w vis, insert w inf⟩
  | expand (l₁ l₂ : List Instance) (w : Instance) (vis inf : Finset Instance)
      (c : List Instance) :
      w ∉ vis → w.isLocal = false →
      List.Perm c ((lookupList bw w).map (·.node)) →
      PropStep bw ⟨l₁ ++ w :: l₂, vis, inf⟩ ⟨c ++ (l₁ ++ l₂), insert w vis, insert w inf⟩

/-- Declarative characterization of the taint set: units reachable from the
initial queue by walking backward edges, never entering the initially visited
set and only expanding through non-local units. -/
inductive Reach (bw : Graph) (v0 : Finset Instance) (q0 : List Instance) : Instance → Prop
  | seed {u : Instance} : u ∈ q0 → u ∉ v0 → Reach bw v0 q0 u
  | step {v u : Instance} : Reach bw v0 q0 v → v.isLocal = false →
      u ∈ (lookupList bw v).map (·.node) → u ∉ v0 → Reach bw v0 q0 u

/-- Invariant of the propagation loop, relative to the initial visited set
`v0` and initial queue `q0` (with initial taint set `∅`). -/
def PropInv (bw : Graph) (v0 : Finset Instance) (q0 : List Instance) (s : PState) : Prop :=
  (∀ u ∈ s.inf, Reach bw v0 q0 u) ∧
  (∀ u ∈ s.wl, u ∈ s.vis ∨ Reach bw v0 q0 u) ∧
  s.vis = v0 ∪ s.inf

/-- Number of edge occurrences stored for keys not yet visited; decreases when
a stored key is tainted, bounding the extra work the loop can create. -/
def remCost (bw : Graph) (vis : Finset Instance) : Nat :=
  ((bw.filter fun p => decide (p.1 ∉ vis)).map fun p => p.2.length).sum

/-! Concrete instances and access maps used to evaluate the analysis on
closed inputs. -/

/-- A non-generic instance with `fullName = name` and definition span 0. -/
def mkUnit (id : Nat) (name krate : String) (lcl : Bool) : Instance :=
  { id := id, name := name, fullName := name, krate := krate,
    isLocal := lcl, isGeneric := false, defSpan := Span.pos 0 }

def exMain : Instance := mkUnit 1 "mycrate::main" "mycrate" true
def exRustAlloc : Instance := mkUnit 2 "alloc::alloc::__rust_alloc" "alloc" false
/-- Access map in which the allowlisted `__rust_alloc` appears as a callee. -/
def exAm1 : List (MonoItem × List (Spanned MonoItem)) :=
  [(MonoItem.fn exMain, [{ node := MonoItem.fn exRustAlloc, span := Span.pos 1 }])]

def exC : Instance := mkUnit 3 "mylib::c" "mylib" false
def exX : Instance := mkUnit 4 "mylib::assume_fallible_hatch" "mylib" false
def exE : Instance := mkUnit 5 "alloc::vec::grow" "alloc" false
def exD : Instance := mkUnit 17 "otherlib::d" "otherlib" false
/-- Access map in which `exC` directly calls an `assume_fallible` unit (which
itself calls `exD`) and an `alloc`-crate leaf. -/
def exAm2 : List (MonoItem × List (Spanned MonoItem)) :=
  [(MonoItem.fn exC,
    [{ node := MonoItem.fn exX, span := Span.pos 1 },
     { node := MonoItem.fn exE, span := Span.pos 2 }]),
   (MonoItem.fn exX, [{ node := MonoItem.fn exD, span := Span.pos 3 }])]

def exA : Instance := mkUnit 6 "mycrate::a" "mycrate" true
def exB : Instance := mkUnit 7 "otherlib::b" "otherlib" false
/-- Access map in which an accessor has a well-formed accessee followed by a
non-fn/non-static one. -/
def exAm4 : List (MonoItem × List (Spanned MonoItem)) :=
  [(MonoItem.fn exA,
    [{ node := MonoItem.fn exB, span := Span.pos 1 },
     { node := MonoItem.otherItem, span := Span.pos 2 }])]

def exP : Instance := mkUnit 8 "mycrate::p" "mycrate" true
def exE2 : Instance := mkUnit 9 "alloc::raw_vec::reserve" "alloc" false
def exE3 : Instance := mkUnit 10 "alloc::string::do_it" "alloc" false
def exE1 : Instance := mkUnit 11 "alloc::alloc::exchange_malloc" "alloc" false
/-- Access map producing two diagnostics, one with a nonempty descendant chain
(`exP` calls `exE2` which calls the leaf `exE1`) and one with an empty one
(`exP` calls the leaf `exE3`). -/
def exAm9 : List (MonoItem × List (Spanned MonoItem)) :=
  [(MonoItem.fn exP,
    [{ node := MonoItem.fn exE2, span := Span.pos 1 },
     { node := MonoItem.fn exE3, span := Span.pos 2 }]),
   (MonoItem.fn exE2, [{ node := MonoItem.fn exE1, span := Span.pos 3 }])]

def exCaller10 : Instance := mkUnit 13 "mycrate::caller" "mycrate" true
def exA10 : Instance := mkUnit 12 "alloc::weird" "alloc" false
/-- Access map in which the `alloc`-crate unit `exA10` is called (so it is a
backward key) and is itself an accessor whose accessee processing is abandoned
immediately, leaving an empty forward entry. -/
def exAm10 : List (MonoItem × List (Spanned MonoItem)) :=
  [(MonoItem.fn exCaller10, [{ node := MonoItem.fn exA10, span := Span.pos 1 }]),
   (MonoItem.fn exA10, [{ node := MonoItem.otherItem, span := Span.dummy }])]

def exL : Instance := mkUnit 14 "mycrate::l" "mycrate" true
def exCaller5 : Instance := mkUnit 15 "mycrate::k" "mycrate" true
/-- Backward graph in which the local unit `exL` has a recorded caller. -/
def exBw5 : Graph := [(exL, [{ node := exCaller5, span := Span.pos 1 }])]

def exU0 : Instance := mkUnit 16 "otherlib::u" "otherlib" false

/-- The first diagnostic the analysis of `exAm9` emits (for the edge from
`exP` to `exE2`). -/
def exD9 : Diagnostic :=
  buildDiag (analyze exAm9).forward (analyze exAm9).backward
    (analyze exAm9).infallible exP { node := exE2, span := Span.pos 1 }

/-- The transpose of one stored edge occurrence. -/
def swapEdge (t : Instance × Instance × Span) : Instance × Instance × Span :=
  (t.2.1, t.1, t.2.2)

/-- The reporting condition of lines 141-153 on one stored edge occurrence:
caller local and tainted, callee external and tainted. -/
def qualifies (inf : Finset Instance) (t : Instance × Instance × Span) : Bool :=
  t.1.isLocal && decide (t.1 ∈ inf) && !t.2.1.isLocal && decide (t.2.1 ∈ inf)

/-! Association-list lemmas. -/

theorem occs_append (m m' : Graph) : occs (m ++ m') = occs m ++ occs m' := by
  simp [occs]

theorem occs_ensureKey (m : Graph) (k : Instance) : occs (ensureKey m k) = occs m := by
  unfold ensureKey
  by_cases h : hasKey m k
  · simp [h]
  · simp [h, occs_append, occs]

theorem occs_pushEntry (m : Graph) (k : Instance) (v : Spanned Instance) :
    List.Perm (occs (pushEntry m k v)) ((k, v.node, v.span) :: occs m) := by
  induction m with
  | nil => simp [pushEntry, occs]
  | cons p rest ih =>
    by_cases h : p.1 = k
    · subst h
      rw [show pushEntry (p :: rest) p.1 v = (p.1, p.2 ++ [v]) :: rest from by
        simp [pushEntry]]
      simp only [occs, List.flatMap_cons, List.map_append]
      rw [List.append_assoc]
      exact List.perm_middle
    · simp only [pushEntry, if_neg h, occs, List.flatMap_cons]
      exact (List.Perm.append_left _ ih).trans List.perm_middle

theorem lookupList_eraseKey (m : Graph) (l v : Instance) (h : v ≠ l) :
    lookupList (eraseKey m l) v = lookupList m v := by
  induction m with
  | nil => rfl
  | cons p rest ih =>
    by_cases hp : p.1 = l
    · simp only [eraseKey, if_pos hp, lookupList]
      rw [if_neg (by rw [hp]; exact fun hvl => h hvl.symm)]
    · simp only [eraseKey, if_neg hp, lookupList]
      by_cases hv : p.1 = v
      · simp [hv]
      · simp [hv, ih]

theorem hasKey_pushEntry (m : Graph) (k k' : Instance) (v : Spanned Instance)
    (h : hasKey m k = true) : hasKey (pushEntry m k' v) k = true := by
  induction m with
  | nil => simp [hasKey] at h
  | cons p rest ih =>
    simp only [hasKey] at h
    by_cases hp : p.1 = k'
    · simp only [pushEntry, if_pos hp, hasKey]
      exact h
    · simp only [pushEntry, if_neg hp, hasKey]
      by_cases hk : p.1 = k
      · simp [hk]
      · simp only [if_neg hk] at h ⊢
        exact ih h

theorem hasKey_append_self (m : Graph) (k : Instance) (l : List (Spanned Instance)) :
    hasKey (m ++ [(k, l)]) k = true := by
  induction m with
  | nil => simp [hasKey]
  | cons p rest ih =>
    rw [List.cons_append,
      show hasKey ((p :: (rest ++ [(k, l)])) : Graph) k
        = if p.1 = k then true else hasKey (rest ++ [(k, l)]) k from rfl]
    by_cases hp : p.1 = k
    · simp [hp]
    · rw [if_neg hp]
      exact ih

theorem hasKey_ensureKey_self (m : Graph) (k : Instance) :
    hasKey (ensureKey m k) k = true := by
  unfold ensureKey
  by_cases h : hasKey m k
  · simp [h]
  · rw [if_neg h]
    exact hasKey_append_self m k []

theorem hasKey_append_left (m m' : Graph) (k : Instance) (h : hasKey m k = true) :
    hasKey (m ++ m') k = true := by
  induction m with
  | nil => simp [hasKey] at h
  | cons p rest ih =>
    rw [List.cons_append]
    rw [show hasKey ((p :: rest) : Graph) k = if p.1 = k then true else hasKey rest k
      from rfl] at h
    rw [show hasKey ((p :: (rest ++ m')) : Graph) k
        = if p.1 = k then true else hasKey (rest ++ m') k from rfl]
    by_cases hk : p.1 = k
    · simp [hk]
    · rw [if_neg hk] at h ⊢
      exact ih h

theorem hasKey_ensureKey (m : Graph) (k k' : Instance) (h : hasKey m k = true) :
    hasKey (ensureKey m k') k = true := by
  unfold ensureKey
  by_cases h' : hasKey m k'
  · simpa [h'] using h
  · simp only [if_neg h']
    exact hasKey_append_left m _ k h

theorem occs_length (m : Graph) : (occs m).length = totalLen m := by
  induction m with
  | nil => rfl
  | cons p rest ih => simp [occs, totalLen, List.flatMap_cons] at ih ⊢; exact ih

/-! Graph-builder lemmas: truncation on a malformed accessee, and the
transpose invariant. -/

theorem processAccessees_truncates (accessor : Instance) (bad : Spanned MonoItem)
    (h : monoInstance bad.node = none) (l₁ l₂ : List (Spanned MonoItem)) :
    ∀ fwd bwd : Graph,
      processAccessees accessor fwd bwd (l₁ ++ bad :: l₂)
        = processAccessees accessor fwd bwd l₁ := by
  induction l₁ with
  | nil =>
    intro fwd bwd
    simp [processAccessees, h]
  | cons a t ih =>
    intro fwd bwd
    cases hm : monoInstance a.node with
    | none => simp [processAccessees, hm]
    | some e =>
      simp only [List.cons_append, processAccessees, hm]
      exact ih _ _

theorem transpose_processAccessees (acc : Instance) (l : List (Spanned MonoItem)) :
    ∀ fwd bwd : Graph, List.Perm (occs fwd) ((occs bwd).map swapEdge) →
      List.Perm (occs (processAccessees acc fwd bwd l).1)
        ((occs (processAccessees acc fwd bwd l).2).map swapEdge) := by
  induction l with
  | nil =>
    intro fwd bwd h
    simpa [processAccessees] using h
  | cons a rest ih =>
    intro fwd bwd h
    cases hm : monoInstance a.node with
    | none => simpa [processAccessees, hm] using h
    | some e =>
      simp only [processAccessees, hm]
      apply ih
      have hf := occs_pushEntry fwd acc
        { node := e, span := if a.span.isDummy then acc.defSpan else a.span }
      have hb := occs_pushEntry bwd e
        { node := acc, span := if a.span.isDummy then acc.defSpan else a.span }
      refine hf.trans (List.Perm.trans ?_ (List.Perm.map swapEdge hb).symm)
      exact List.Perm.cons _ h

theorem transpose_buildGraphAux (am : List (MonoItem × List (Spanned MonoItem))) :
    ∀ fwd bwd : Graph, List.Perm (occs fwd) ((occs bwd).map swapEdge) →
      List.Perm (occs (buildGraphAux am fwd bwd).1)
        ((occs (buildGraphAux am fwd bwd).2).map swapEdge) := by
  induction am with
  | nil =>
    intro fwd bwd h
    simpa [buildGraphAux] using h
  | cons e rest ih =>
    intro fwd bwd h
    cases hm : monoInstance e.1 with
    | none => simpa [buildGraphAux, hm] using ih fwd bwd h
    | some accessor =>
      rw [show buildGraphAux (e :: rest) fwd bwd
          = buildGraphAux rest
              (processAccessees accessor (ensureKey fwd accessor) bwd e.2).1
              (processAccessees accessor (ensureKey fwd accessor) bwd e.2).2 from by
        rw [show (e :: rest) = ((e.1, e.2) :: rest) from rfl]
        simp [buildGraphAux, hm]]
      apply ih
      apply transpose_processAccessees
      rw [occs_ensureKey]
      exact h

/-! Seed-queue membership. -/

theorem mem_seedStep (fwd : Graph) (q : List Instance)
    (p : Instance × List (Spanned Instance)) (u : Instance) :
    u ∈ seedStep fwd q p ↔
      u ∈ q ∨ (u = p.1 ∧ hasKey fwd u = false ∧ u.krate = "alloc") := by
  unfold seedStep
  by_cases h1 : hasKey fwd p.1
  · rw [if_pos h1]
    constructor
    · exact fun h => Or.inl h
    · rintro (h | ⟨rfl, hf, _⟩)
      · exact h
      · rw [h1] at hf
        cases hf
  · rw [if_neg h1]
    have h1' : hasKey fwd p.1 = false := by
      cases hx : hasKey fwd p.1
      · rfl
      · exact absurd hx h1
    by_cases h2 : p.1.krate = "alloc"
    · rw [if_pos h2]
      constructor
      · intro h
        rcases List.mem_append.mp h with h | h
        · exact Or.inl h
        · rw [List.mem_singleton.mp h]
          exact Or.inr ⟨rfl, h1', h2⟩
      · rintro (h | ⟨rfl, _, _⟩)
        · exact List.mem_append.mpr (Or.inl h)
        · exact List.mem_append.mpr (Or.inr (List.mem_singleton.mpr rfl))
    · rw [if_neg h2]
      constructor
      · exact fun h => Or.inl h
      · rintro (h | ⟨rfl, _, hk⟩)
        · exact h
        · exact absurd hk h2

theorem mem_seedQueue_aux (fwd : Graph) (bwd : Graph) :
    ∀ (q : List Instance) (u : Instance),
      u ∈ bwd.foldl (seedStep fwd) q ↔
        u ∈ q ∨ ∃ p ∈ bwd, u = p.1 ∧ hasKey fwd u = false ∧ u.krate = "alloc" := by
  induction bwd with
  | nil => intro q u; simp
  | cons p rest ih =>
    intro q u
    rw [List.foldl_cons, ih, mem_seedStep]
    constructor
    · rintro ((h | h) | ⟨p', hp', h⟩)
      · exact Or.inl h
      · exact Or.inr ⟨p, List.mem_cons_self p rest, h⟩
      · exact Or.inr ⟨p', List.mem_cons_of_mem p hp', h⟩
    · rintro (h | ⟨p', hp', h⟩)
      · exact Or.inl (Or.inl h)
      · rcases List.mem_cons.mp hp' with rfl | hp'
        · exact Or.inl (Or.inr h)
        · exact Or.inr ⟨p', hp', h⟩

theorem mem_seedQueue (fwd bwd : Graph) (u : Instance) :
    u ∈ seedQueue fwd bwd ↔
      (∃ p ∈ bwd, p.1 = u) ∧ hasKey fwd u = false ∧ u.krate = "alloc" := by
  rw [seedQueue, mem_seedQueue_aux]
  constructor
  · rintro (h | ⟨p, hp, rfl, h⟩)
    · cases h
    · exact ⟨⟨p, hp, rfl⟩, h⟩
  · rintro ⟨⟨p, hp, rfl⟩, h⟩
    exact Or.inr ⟨p, hp, rfl, h⟩

/-! Seed-classifier lemmas. -/

theorem insertNodes_subset (l : List (Spanned Instance)) :
    ∀ vis : Finset Instance, vis ⊆ l.foldl (fun v s => insert s.node v) vis := by
  induction l with
  | nil => exact fun vis => Finset.Subset.refl vis
  | cons s rest ih =>
    intro vis
    rw [List.foldl_cons]
    exact (Finset.subset_insert _ vis).trans (ih _)

theorem insertNodes_mem (l : List (Spanned Instance)) :
    ∀ (vis : Finset Instance) (s : Spanned Instance), s ∈ l →
      s.node ∈ l.foldl (fun v s => insert s.node v) vis := by
  induction l with
  | nil => intro vis s hs; cases hs
  | cons a rest ih =>
    intro vis s hs
    rw [List.foldl_cons]
    rcases List.mem_cons.mp hs with rfl | hs
    · exact insertNodes_subset rest _ (Finset.mem_insert_self _ _)
    · exact ih _ s hs

theorem classifyStep_subset (fwd : Graph) (vis : Finset Instance)
    (p : Instance × List (Spanned Instance)) : vis ⊆ classifyStep fwd vis p := by
  unfold classifyStep
  split_ifs
  · exact (Finset.subset_insert _ vis).trans (insertNodes_subset _ _)
  · exact Finset.subset_insert _ vis
  · exact Finset.Subset.refl vis

theorem classifyFold_subset (fwd : Graph) (l : Graph) :
    ∀ vis : Finset Instance, vis ⊆ l.foldl (classifyStep fwd) vis := by
  induction l with
  | nil => exact fun vis => Finset.Subset.refl vis
  | cons p rest ih =>
    intro vis
    rw [List.foldl_cons]
    exact (classifyStep_subset fwd vis p).trans (ih _)

theorem classify_mem_self_aux (fwd : Graph) (X : Instance) (lst : List (Spanned Instance))
    (hname : containsSub X.name "assume_fallible" = true ∨ isAllowName X.name = true) :
    ∀ (l : Graph) (vis : Finset Instance), (X, lst) ∈ l →
      X ∈ l.foldl (classifyStep fwd) vis := by
  intro l
  induction l with
  | nil => intro vis h; cases h
  | cons p rest ih =>
    intro vis h
    rw [List.foldl_cons]
    rcases List.mem_cons.mp h with heq | h
    · subst heq
      apply classifyFold_subset fwd rest _
      unfold classifyStep
      by_cases hm : containsSub X.name "assume_fallible" = true
      · rw [if_pos (by exact hm)]
        exact insertNodes_subset _ _ (Finset.mem_insert_self X vis)
      · rw [if_neg (by exact hm)]
        have ha : isAllowName X.name = true := hname.resolve_left hm
        rw [if_pos (by exact ha)]
        exact Finset.mem_insert_self X vis
    · exact ih _ h

theorem classify_mem_self (fwd bwd : Graph) (X : Instance)
    (lst : List (Spanned Instance)) (h : (X, lst) ∈ bwd)
    (hname : containsSub X.name "assume_fallible" = true ∨ isAllowName X.name = true) :
    X ∈ classifySeeds fwd bwd :=
  classify_mem_self_aux fwd X lst hname bwd ∅ h

theorem classify_mem_callees_aux (fwd : Graph) (X : Instance) (lst : List (Spanned Instance))
    (hm : containsSub X.name "assume_fallible" = true) (s : Spanned Instance)
    (hs : s ∈ lookupList fwd X) :
    ∀ (l : Graph) (vis : Finset Instance), (X, lst) ∈ l →
      s.node ∈ l.foldl (classifyStep fwd) vis := by
  intro l
  induction l with
  | nil => intro vis h; cases h
  | cons p rest ih =>
    intro vis h
    rw [List.foldl_cons]
    rcases List.mem_cons.mp h with heq | h
    · subst heq
      apply classifyFold_subset fwd rest _
      unfold classifyStep
      rw [if_pos (by exact hm)]
      exact insertNodes_mem _ _ s hs
    · exact ih _ h

theorem classify_mem_callees (fwd bwd : Graph) (X : Instance)
    (lst : List (Spanned Instance)) (h : (X, lst) ∈ bwd)
    (hm : containsSub X.name "assume_fallible" = true) (s : Spanned Instance)
    (hs : s ∈ lookupList fwd X) : s.node ∈ classifySeeds fwd bwd :=
  classify_mem_callees_aux fwd X lst hm s hs bwd ∅ h

/-! Propagation lemmas on the deterministic (fuel-indexed) loop. -/

theorem propagate_visited_not_tainted (bw : Graph) :
    ∀ (fuel : Nat) (wl : List Instance) (vis inf : Finset Instance) (u : Instance),
      u ∈ vis → u ∉ inf → u ∉ (propagate bw fuel wl vis inf).1 := by
  intro fuel
  induction fuel with
  | zero => intro wl vis inf u _ hi; exact hi
  | succ f ih =>
    intro wl vis inf u hv hi
    cases wl with
    | nil => exact hi
    | cons w rest =>
      by_cases hw : w ∈ vis
      · rw [show propagate bw (f + 1) (w :: rest) vis inf = propagate bw f rest vis inf
          from by simp [propagate, hw]]
        exact ih rest vis inf u hv hi
      · have hwu : w ≠ u := fun hh => hw (hh ▸ hv)
        have hi' : u ∉ insert w inf := by
          intro hmem
          rcases Finset.mem_insert.mp hmem with hh | hh
          · exact hwu hh.symm
          · exact hi hh
        by_cases hl : w.isLocal
        · rw [show propagate bw (f + 1) (w :: rest) vis inf
              = propagate bw f rest (insert w vis) (insert w inf)
            from by simp [propagate, hw, hl]]
          exact ih rest _ _ u (Finset.mem_insert_of_mem hv) hi'
        · rw [show propagate bw (f + 1) (w :: rest) vis inf
              = propagate bw f (((lookupList bw w).map (·.node)).reverse ++ rest)
                  (insert w vis) (insert w inf)
            from by simp [propagate, hw, hl]]
          exact ih _ _ _ u (Finset.mem_insert_of_mem hv) hi'

theorem propagate_eraseKey_local (bw : Graph) (L : Instance) (hL : L.isLocal = true) :
    ∀ (fuel : Nat) (wl : List Instance) (vis inf : Finset Instance),
      propagate bw fuel wl vis inf = propagate (eraseKey bw L) fuel wl vis inf := by
  intro fuel
  induction fuel with
  | zero => intro wl vis inf; rfl
  | succ f ih =>
    intro wl vis inf
    cases wl with
    | nil => rfl
    | cons w rest =>
      by_cases hw : w ∈ vis
      · simp only [propagate, if_pos hw]
        exact ih rest vis inf
      · by_cases hl : w.isLocal
        · simp only [propagate, if_neg hw, if_pos hl]
          exact ih rest _ _
        · have hne : w ≠ L := fun hh => hl (hh ▸ hL)
          simp only [propagate, if_neg hw, if_neg hl]
          rw [lookupList_eraseKey bw L w hne]
          exact ih _ _ _

/-! The descendant walk's final lead-in message. -/

theorem descWalk_msg (fwd : Graph) (inf : Finset Instance) :
    ∀ (fuel : Nat) (vis : Finset Instance) (callee : Instance) (msg : String),
      (descWalk fwd inf fuel vis callee msg).2
        = if (descWalk fwd inf fuel vis callee msg).1.isEmpty then msg else "which" := by
  intro fuel
  induction fuel with
  | zero => intro vis callee msg; simp [descWalk]
  | succ f ih =>
    intro vis callee msg
    cases hfind : (lookupList fwd callee).find?
        (fun x => decide (x.node ∈ inf) && !decide (x.node ∈ vis)) with
    | none => simp [descWalk, hfind]
    | some cc =>
      simp only [descWalk, hfind, List.isEmpty_cons, if_neg]
      rw [ih]
      by_cases hh : (descWalk fwd inf f (insert cc.node vis) cc.node "which").1.isEmpty
      · simp [hh]
      · simp [hh]

/-! Reporter lemmas: the diagnostic's identifying fields, and the
characterization of which edges get a diagnostic. -/

theorem buildDiag_accessor (fwd bwd : Graph) (inf : Finset Instance) (a : Instance)
    (item : Spanned Instance) : (buildDiag fwd bwd inf a item).accessor = a := rfl

theorem buildDiag_accessee (fwd bwd : Graph) (inf : Finset Instance) (a : Instance)
    (item : Spanned Instance) : (buildDiag fwd bwd inf a item).accessee = item.node := rfl

theorem buildDiag_span (fwd bwd : Graph) (inf : Finset Instance) (a : Instance)
    (item : Spanned Instance) : (buildDiag fwd bwd inf a item).span = item.span := rfl

theorem report_entry (fwd bwd : Graph) (inf : Finset Instance) (a : Instance)
    (es : List (Spanned Instance)) :
    ((if !a.isLocal then ([] : List Diagnostic)
      else if a ∉ inf then []
      else es.filterMap fun item =>
        if !item.node.isLocal && decide (item.node ∈ inf) then
          some (buildDiag fwd bwd inf a item)
        else none).map fun d => (d.accessor, d.accessee, d.span))
      = (es.map fun s => (a, s.node, s.span)).filter (qualifies inf) := by
  by_cases hloc : a.isLocal = true
  · by_cases hinf : a ∈ inf
    · rw [if_neg (by rw [hloc]; simp), if_neg (by simp [hinf])]
      induction es with
      | nil => rfl
      | cons item t ih =>
        rw [List.map_cons, List.filter_cons]
        cases hc : (!item.node.isLocal && decide (item.node ∈ inf)) with
        | true =>
          have hfa : (if (!item.node.isLocal && decide (item.node ∈ inf)) = true
              then some (buildDiag fwd bwd inf a item) else none)
              = some (buildDiag fwd bwd inf a item) := by rw [hc]; rfl
          rw [@List.filterMap_cons_some (Spanned Instance) Diagnostic
            (fun it => if (!it.node.isLocal && decide (it.node ∈ inf)) = true
              then some (buildDiag fwd bwd inf a it) else none)
            item t (buildDiag fwd bwd inf a item) hfa, List.map_cons, ih]
          have hparts : (!item.node.isLocal) = true ∧ decide (item.node ∈ inf) = true := by
            simpa [Bool.and_eq_true] using hc
          have hq : qualifies inf (a, item.node, item.span) = true := by
            simp [qualifies, hloc, hinf, hparts.1, hparts.2]
          rw [hq, if_pos rfl]
          rfl
        | false =>
          have hfa : (if (!item.node.isLocal && decide (item.node ∈ inf)) = true
              then some (buildDiag fwd bwd inf a item) else none) = none := by rw [hc]; rfl
          rw [@List.filterMap_cons_none (Spanned Instance) Diagnostic
            (fun it => if (!it.node.isLocal && decide (it.node ∈ inf)) = true
              then some (buildDiag fwd bwd inf a it) else none)
            item t hfa, ih]
          have hq : qualifies inf (a, item.node, item.span) = false := by
            simp only [qualifies]
            rw [show (a.isLocal && decide (a ∈ inf)) = true from by simp [hloc, hinf]]
            rw [Bool.true_and]
            exact hc
          rw [hq, if_neg (by simp)]
    · rw [if_neg (by rw [hloc]; simp), if_pos hinf, List.map_nil]
      symm
      rw [List.filter_eq_nil_iff]
      intro x hx
      rcases List.mem_map.mp hx with ⟨s, _, rfl⟩
      simp [qualifies, hinf]
  · have hfalse : a.isLocal = false := by
      cases hx : a.isLocal with
      | false => rfl
      | true => exact absurd hx hloc
    rw [if_pos (by rw [hfalse]; rfl), List.map_nil]
    symm
    rw [List.filter_eq_nil_iff]
    intro x hx
    rcases List.mem_map.mp hx with ⟨s, _, rfl⟩
    simp [qualifies, hfalse]

theorem report_spec_aux (fwd bwd : Graph) (inf : Finset Instance) :
    ∀ l : Graph,
      ((l.flatMap fun p =>
        if !p.1.isLocal then ([] : List Diagnostic)
        else if p.1 ∉ inf then []
        else p.2.filterMap fun item =>
          if !item.node.isLocal && decide (item.node ∈ inf) then
            some (buildDiag fwd bwd inf p.1 item)
          else none).map fun d => (d.accessor, d.accessee, d.span))
      = (l.flatMap fun p => p.2.map fun s => (p.1, s.node, s.span)).filter (qualifies inf) := by
  intro l
  induction l with
  | nil => rfl
  | cons p rest ih =>
    simp only [List.flatMap_cons, List.map_append, List.filter_append]
    rw [ih, report_entry]

/-! Propagation: cost bookkeeping for the fuel bound. -/

theorem remCost_cons (p : Instance × List (Spanned Instance)) (rest : Graph)
    (vis : Finset Instance) :
    remCost (p :: rest) vis
      = (if p.1 ∉ vis then p.2.length else 0) + remCost rest vis := by
  unfold remCost
  rw [List.filter_cons]
  by_cases h : p.1 ∉ vis
  · rw [if_pos (by simpa using h), if_pos h]
    simp
  · rw [if_neg (by simpa using h), if_neg h]
    simp

theorem remCost_mono (bw : Graph) (vis vis' : Finset Instance) (h : vis ⊆ vis') :
    remCost bw vis' ≤ remCost bw vis := by
  induction bw with
  | nil => exact Nat.le_refl _
  | cons p rest ih =>
    rw [remCost_cons, remCost_cons]
    by_cases h' : p.1 ∉ vis'
    · rw [if_pos h', if_pos (fun hmem => h' (h hmem))]
      omega
    · rw [if_neg h']
      have : (if p.1 ∉ vis then p.2.length else 0) + remCost rest vis
          ≥ remCost rest vis := by omega
      omega

theorem remCost_insert (bw : Graph) (w : Instance) (vis : Finset Instance)
    (hw : w ∉ vis) :
    (lookupList bw w).length + remCost bw (insert w vis) ≤ remCost bw vis := by
  induction bw with
  | nil => simp [lookupList, remCost]
  | cons p rest ih =>
    rw [remCost_cons, remCost_cons]
    by_cases hp : p.1 = w
    · rw [show lookupList (p :: rest) w = p.2 from by rw [← hp]; simp [lookupList]]
      rw [if_neg (by simp [hp]), if_pos (by rw [hp]; exact hw)]
      have hmono := remCost_mono rest vis (insert w vis) (Finset.subset_insert w vis)
      omega
    · rw [show lookupList (p :: rest) w = lookupList rest w from by
        simp [lookupList, hp]]
      have hiff : (p.1 ∉ insert w vis) ↔ (p.1 ∉ vis) := by
        constructor
        · exact fun hmem h' => hmem (Finset.mem_insert_of_mem h')
        · intro h' hmem
          rcases Finset.mem_insert.mp hmem with h'' | h''
          · exact hp h''
          · exact h' h''
      by_cases hv : p.1 ∉ insert w vis
      · rw [if_pos hv, if_pos (hiff.mp hv)]
        omega
      · rw [if_neg hv, if_neg (fun h' => hv (hiff.mpr h'))]
        omega

theorem remCost_le_totalLen (bw : Graph) (vis : Finset Instance) :
    remCost bw vis ≤ totalLen bw := by
  induction bw with
  | nil => exact Nat.le_refl _
  | cons p rest ih =>
    rw [remCost_cons, show totalLen (p :: rest) = p.2.length + totalLen rest from by
      simp [totalLen]]
    by_cases h : p.1 ∉ vis
    · rw [if_pos h]; omega
    · rw [if_neg h]; omega

/-- The deterministic loop, run with enough fuel, is one possible run of the
nondeterministic step relation reaching the empty worklist: the fuel bound
`wl.length + remCost bw vis` always suffices. -/
theorem propagate_run (bw : Graph) :
    ∀ (fuel : Nat) (wl : List Instance) (vis inf : Finset Instance),
      wl.length + remCost bw vis ≤ fuel →
      Relation.ReflTransGen (PropStep bw) ⟨wl, vis, inf⟩
        ⟨[], (propagate bw fuel wl vis inf).2, (propagate bw fuel wl vis inf).1⟩ := by
  intro fuel
  induction fuel with
  | zero =>
    intro wl vis inf hb
    have hwl : wl = [] := by
      cases wl with
      | nil => rfl
      | cons w rest => simp at hb
    subst hwl
    exact Relation.ReflTransGen.refl
  | succ f ih =>
    intro wl vis inf hb
    cases wl with
    | nil => exact Relation.ReflTransGen.refl
    | cons w rest =>
      by_cases hw : w ∈ vis
      · rw [show propagate bw (f + 1) (w :: rest) vis inf = propagate bw f rest vis inf
          from by simp [propagate, hw]]
        refine Relation.ReflTransGen.head (PropStep.skip [] rest w vis inf hw) ?_
        refine ih rest vis inf ?_
        simp only [List.length_cons] at hb
        omega
      · by_cases hl : w.isLocal
        · rw [show propagate bw (f + 1) (w :: rest) vis inf
              = propagate bw f rest (insert w vis) (insert w inf)
            from by simp [propagate, hw, hl]]
          refine Relation.ReflTransGen.head
            (PropStep.localStop [] rest w vis inf hw hl) ?_
          refine ih rest _ _ ?_
          have hmono := remCost_mono bw vis (insert w vis) (Finset.subset_insert w vis)
          simp only [List.length_cons] at hb
          omega
        · have hlf : w.isLocal = false := by
            cases hx : w.isLocal with
            | false => rfl
            | true => exact absurd hx hl
          rw [show propagate bw (f + 1) (w :: rest) vis inf
              = propagate bw f (((lookupList bw w).map (·.node)).reverse ++ rest)
                  (insert w vis) (insert w inf)
            from by simp [propagate, hw, hl]]
          refine Relation.ReflTransGen.head
            (PropStep.expand [] rest w vis inf
              (((lookupList bw w).map (·.node)).reverse) hw hlf
              (List.reverse_perm _)) ?_
          refine ih _ _ _ ?_
          have hins := remCost_insert bw w vis hw
          simp only [List.length_append, List.length_reverse, List.length_map,
            List.length_cons, List.nil_append, List.length_nil] at hb ⊢
          omega

/-! The propagation invariant and the run-level visiting lemmas. -/

theorem reach_not_v0 {bw : Graph} {v0 : Finset Instance} {q0 : List Instance}
    {u : Instance} (h : Reach bw v0 q0 u) : u ∉ v0 := by
  cases h with
  | seed _ hv => exact hv
  | step _ _ _ hv => exact hv

theorem propInv_init (bw : Graph) (v0 : Finset Instance) (q0 : List Instance) :
    PropInv bw v0 q0 ⟨q0, v0, ∅⟩ := by
  refine ⟨?_, ?_, ?_⟩
  · intro u hu
    exact absurd hu (Finset.not_mem_empty u)
  · intro u hu
    by_cases hv : u ∈ v0
    · exact Or.inl hv
    · exact Or.inr (Reach.seed hu hv)
  · simp

theorem mem_remove_middle {u w : Instance} {l₁ l₂ : List Instance}
    (hu : u ∈ l₁ ++ w :: l₂) (hne : u ≠ w) : u ∈ l₁ ++ l₂ := by
  rcases List.mem_append.mp hu with h | h
  · exact List.mem_append.mpr (Or.inl h)
  · rcases List.mem_cons.mp h with h | h
    · exact absurd h hne
    · exact List.mem_append.mpr (Or.inr h)

theorem mem_add_middle {u w : Instance} {l₁ l₂ : List Instance}
    (hu : u ∈ l₁ ++ l₂) : u ∈ l₁ ++ w :: l₂ := by
  rcases List.mem_append.mp hu with h | h
  · exact List.mem_append.mpr (Or.inl h)
  · exact List.mem_append.mpr (Or.inr (List.mem_cons_of_mem w h))

theorem propInv_step {bw : Graph} {v0 : Finset Instance} {q0 : List Instance}
    {s s' : PState} (hstep : PropStep bw s s') (hinv : PropInv bw v0 q0 s) :
    PropInv bw v0 q0 s' := by
  obtain ⟨h1, h2, h3⟩ := hinv
  cases hstep with
  | skip l₁ l₂ w vis inf hw =>
    exact ⟨h1, fun u hu => h2 u (mem_add_middle hu), h3⟩
  | localStop l₁ l₂ w vis inf hw hloc =>
    have hwReach : Reach bw v0 q0 w := by
      rcases h2 w (by simp) with hv | hr
      · exact absurd hv hw
      · exact hr
    refine ⟨?_, ?_, ?_⟩
    · intro u hu
      rcases Finset.mem_insert.mp hu with rfl | hu
      · exact hwReach
      · exact h1 u hu
    · intro u hu
      rcases h2 u (mem_add_middle hu) with hv | hr
      · exact Or.inl (Finset.mem_insert_of_mem hv)
      · exact Or.inr hr
    · show insert w vis = v0 ∪ insert w inf
      rw [show vis = v0 ∪ inf from h3]
      rw [Finset.union_insert]
  | expand l₁ l₂ w vis inf c hw hloc hperm =>
    have hwReach : Reach bw v0 q0 w := by
      rcases h2 w (by simp) with hv | hr
      · exact absurd hv hw
      · exact hr
    refine ⟨?_, ?_, ?_⟩
    · intro u hu
      rcases Finset.mem_insert.mp hu with rfl | hu
      · exact hwReach
      · exact h1 u hu
    · intro u hu
      rcases List.mem_append.mp hu with hc | hrest
      · by_cases hv : u ∈ v0
        · refine Or.inl (Finset.mem_insert_of_mem ?_)
          show u ∈ vis
          rw [show vis = v0 ∪ inf from h3]
          exact Finset.mem_union_left inf hv
        · exact Or.inr (Reach.step hwReach hloc (hperm.mem_iff.mp hc) hv)
      · rcases h2 u (mem_add_middle hrest) with hv | hr
        · exact Or.inl (Finset.mem_insert_of_mem hv)
        · exact Or.inr hr
    · show insert w vis = v0 ∪ insert w inf
      rw [show vis = v0 ∪ inf from h3]
      rw [Finset.union_insert]

theorem propInv_run {bw : Graph} {v0 : Finset Instance} {q0 : List Instance}
    {s s' : PState} (h : Relation.ReflTransGen (PropStep bw) s s')
    (hinv : PropInv bw v0 q0 s) : PropInv bw v0 q0 s' := by
  induction h with
  | refl => exact hinv
  | tail _ hstep ih => exact propInv_step hstep ih

theorem propStep_vis_mono {bw : Graph} {s s' : PState} (h : PropStep bw s s') :
    s.vis ⊆ s'.vis := by
  cases h with
  | skip l₁ l₂ w vis inf hw => exact Finset.Subset.refl _
  | localStop l₁ l₂ w vis inf hw hloc => exact Finset.subset_insert _ _
  | expand l₁ l₂ w vis inf c hw hloc hperm => exact Finset.subset_insert _ _

theorem propRun_vis_mono {bw : Graph} {s s' : PState}
    (h : Relation.ReflTransGen (PropStep bw) s s') : s.vis ⊆ s'.vis := by
  induction h with
  | refl => exact Finset.Subset.refl _
  | tail _ hstep ih => exact ih.trans (propStep_vis_mono hstep)

theorem run_wl_visited {bw : Graph} {s sf : PState}
    (h : Relation.ReflTransGen (PropStep bw) s sf) (hend : sf.wl = []) :
    ∀ u ∈ s.wl, u ∈ sf.vis := by
  induction h using Relation.ReflTransGen.head_induction_on with
  | refl =>
    intro u hu
    rw [hend] at hu
    cases hu
  | head hstep hrun ih =>
    intro u hu
    cases hstep with
    | skip l₁ l₂ w vis inf hw =>
      by_cases huw : u = w
      · exact propRun_vis_mono hrun (huw ▸ hw)
      · exact ih u (mem_remove_middle hu huw)
    | localStop l₁ l₂ w vis inf hw hloc =>
      by_cases huw : u = w
      · exact propRun_vis_mono hrun (huw ▸ Finset.mem_insert_self w vis)
      · exact ih u (mem_remove_middle hu huw)
    | expand l₁ l₂ w vis inf c hw hloc hperm =>
      by_cases huw : u = w
      · exact propRun_vis_mono hrun (huw ▸ Finset.mem_insert_self w vis)
      · exact ih u (List.mem_append.mpr (Or.inr (mem_remove_middle hu huw)))

theorem run_tainted_callers_visited {bw : Graph} {s sf : PState}
    (h : Relation.ReflTransGen (PropStep bw) s sf) (hend : sf.wl = []) :
    ∀ v, v ∈ sf.inf → v ∉ s.inf → v.isLocal = false →
      ∀ x ∈ lookupList bw v, x.node ∈ sf.vis := by
  induction h using Relation.ReflTransGen.head_induction_on with
  | refl =>
    intro v hv hnv _ x _
    exact absurd hv hnv
  | head hstep hrun ih =>
    intro v hv hnv hloc x hx
    cases hstep with
    | skip l₁ l₂ w vis inf hw =>
      exact ih v hv hnv hloc x hx
    | localStop l₁ l₂ w vis inf hw hwl =>
      have hv1 : v ∉ insert w inf := by
        intro hmem
        rcases Finset.mem_insert.mp hmem with rfl | hmem
        · rw [hwl] at hloc
          cases hloc
        · exact hnv hmem
      exact ih v hv hv1 hloc x hx
    | expand l₁ l₂ w vis inf c hw hwl hperm =>
      by_cases hvw : v = w
      · subst hvw
        have hxin : x.node ∈ c := hperm.mem_iff.mpr (List.mem_map.mpr ⟨x, hx, rfl⟩)
        exact run_wl_visited hrun hend x.node (List.mem_append.mpr (Or.inl hxin))
      · have hv1 : v ∉ insert w inf := by
          intro hmem
          rcases Finset.mem_insert.mp hmem with h' | h'
          · exact hvw h'
          · exact hnv h'
        exact ih v hv hv1 hloc x hx

/-- Any complete run of the propagation loop ends with exactly the reachable
units in its taint set. -/
theorem run_inf_eq_reach {bw : Graph} {v0 : Finset Instance} {q0 : List Instance}
    {sf : PState} (h : Relation.ReflTransGen (PropStep bw) ⟨q0, v0, ∅⟩ sf)
    (hend : sf.wl = []) : ∀ u, u ∈ sf.inf ↔ Reach bw v0 q0 u := by
  have hinv := propInv_run h (propInv_init bw v0 q0)
  intro u
  constructor
  · exact fun hu => hinv.1 u hu
  · intro hr
    induction hr with
    | seed hq hv =>
      have hvis := run_wl_visited h hend _ hq
      rw [hinv.2.2] at hvis
      rcases Finset.mem_union.mp hvis with h' | h'
      · exact absurd h' hv
      · exact h'
    | step _ hloc hmem hv ih =>
      rcases List.mem_map.mp hmem with ⟨x, hx, hxu⟩
      have hvis := run_tainted_callers_visited h hend _ ih
        (Finset.not_mem_empty _) hloc x hx
      rw [hxu] at hvis
      rw [hinv.2.2] at hvis
      rcases Finset.mem_union.mp hvis with h' | h'
      · exact absurd h' hv
      · exact h'

/-! Forward-index keys survive the whole build (for claim C10). -/

theorem hasKey_processAccessees (acc : Instance) (l : List (Spanned MonoItem)) :
    ∀ (fwd bwd : Graph) (k : Instance), hasKey fwd k = true →
      hasKey (processAccessees acc fwd bwd l).1 k = true := by
  induction l with
  | nil => exact fun fwd bwd k h => h
  | cons a rest ih =>
    intro fwd bwd k h
    cases hm : monoInstance a.node with
    | none => simpa [processAccessees, hm] using h
    | some e =>
      simp only [processAccessees, hm]
      exact ih _ _ k (hasKey_pushEntry fwd k acc _ h)

theorem hasKey_buildGraphAux (am : List (MonoItem × List (Spanned MonoItem))) :
    ∀ (fwd bwd : Graph) (k : Instance), hasKey fwd k = true →
      hasKey (buildGraphAux am fwd bwd).1 k = true := by
  induction am with
  | nil => exact fun fwd bwd k h => h
  | cons e rest ih =>
    intro fwd bwd k h
    cases hm : monoInstance e.1 with
    | none =>
      rw [show buildGraphAux (e :: rest) fwd bwd = buildGraphAux rest fwd bwd from by
        rw [show (e :: rest) = ((e.1, e.2) :: rest) from rfl]
        simp [buildGraphAux, hm]]
      exact ih fwd bwd k h
    | some accessor =>
      rw [show buildGraphAux (e :: rest) fwd bwd
          = buildGraphAux rest
              (processAccessees accessor (ensureKey fwd accessor) bwd e.2).1
              (processAccessees accessor (ensureKey fwd accessor) bwd e.2).2 from by
        rw [show (e :: rest) = ((e.1, e.2) :: rest) from rfl]
        simp [buildGraphAux, hm]]
      exact ih _ _ k (hasKey_processAccessees accessor e.2 _ bwd k
        (hasKey_ensureKey fwd k accessor h))

theorem buildGraphAux_accessor_key (am : List (MonoItem × List (Spanned MonoItem))) :
    ∀ (fwd bwd : Graph) (A : MonoItem) (l : List (Spanned MonoItem)) (a : Instance),
      (A, l) ∈ am → monoInstance A = some a →
      hasKey (buildGraphAux am fwd bwd).1 a = true := by
  induction am with
  | nil => intro fwd bwd A l a hmem; cases hmem
  | cons e rest ih =>
    intro fwd bwd A l a hmem hconv
    rcases List.mem_cons.mp hmem with heq | hmem
    · subst heq
      rw [show buildGraphAux ((A, l) :: rest) fwd bwd
          = buildGraphAux rest
              (processAccessees a (ensureKey fwd a) bwd l).1
              (processAccessees a (ensureKey fwd a) bwd l).2 from by
        simp [buildGraphAux, hconv]]
      exact hasKey_buildGraphAux rest _ _ a
        (hasKey_processAccessees a l _ bwd a (hasKey_ensureKey_self fwd a))
    · cases hm : monoInstance e.1 with
      | none =>
        rw [show buildGraphAux (e :: rest) fwd bwd = buildGraphAux rest fwd bwd from by
          rw [show (e :: rest) = ((e.1, e.2) :: rest) from rfl]
          simp [buildGraphAux, hm]]
        exact ih fwd bwd A l a hmem hconv
      | some accessor =>
        rw [show buildGraphAux (e :: rest) fwd bwd
            = buildGraphAux rest
                (processAccessees accessor (ensureKey fwd accessor) bwd e.2).1
                (processAccessees accessor (ensureKey fwd accessor) bwd e.2).2 from by
          rw [show (e :: rest) = ((e.1, e.2) :: rest) from rfl]
          simp [buildGraphAux, hm]]
        exact ih _ _ A l a hmem hconv

/-! Every emitted diagnostic is a `buildDiag`, and its closing note. -/

theorem mem_reportDiags (fwd bwd : Graph) (inf : Finset Instance) (d : Diagnostic)
    (hd : d ∈ reportDiags fwd bwd inf) :
    ∃ (a : Instance) (item : Spanned Instance), d = buildDiag fwd bwd inf a item := by
  unfold reportDiags at hd
  rcases List.mem_flatMap.mp hd with ⟨p, _, hdp⟩
  by_cases h1 : (!p.1.isLocal) = true
  · rw [if_pos h1] at hdp
    cases hdp
  · rw [if_neg h1] at hdp
    by_cases h2 : p.1 ∉ inf
    · rw [if_pos h2] at hdp
      cases hdp
    · rw [if_neg h2] at hdp
      rcases List.mem_filterMap.mp hdp with ⟨item, _, heq⟩
      by_cases h3 : (!item.node.isLocal && decide (item.node ∈ inf)) = true
      · rw [if_pos h3] at heq
        exact ⟨p.1, item, (Option.some.inj heq).symm⟩
      · rw [if_neg h3] at heq
        cases heq

theorem buildDiag_closing (fwd bwd : Graph) (inf : Finset Instance) (a : Instance)
    (item : Spanned Instance) :
    (buildDiag fwd bwd inf a item).closing
      = (if (buildDiag fwd bwd inf a item).descNotes.isEmpty then
          "`" ++ item.node.fullName ++ "` is determined to be infallible because it"
        else "which") ++ " may call alloc_error_handler" := by
  have h := descWalk_msg fwd inf (totalLen fwd + 1)
    (ancWalk bwd (totalLen bwd + 1) (insert item.node (insert a ∅)) a).2 item.node
    ("`" ++ item.node.fullName ++ "` is determined to be infallible because it")
  exact congrArg (fun s => s ++ " may call alloc_error_handler") h

/-! The claims. -/

/-- C1 counterexample: `alloc::alloc::__rust_alloc` exactly matches the fixed
allowlist and appears as a callee of `exAm1`'s graph, yet after propagation it
is NOT in the taint set (the allowlist inserts into the visited/whitelist set
on line 97, which makes propagation skip the unit, so it can never be
tainted). -/
theorem c1_counterexample :
    isAllowName exRustAlloc.name = true ∧
    lookupList (analyze exAm1).backward exRustAlloc ≠ [] ∧
    exRustAlloc ∉ (analyze exAm1).infallible := by
  refine ⟨by decide, by decide, by decide⟩

/-- C1 (amended): every Unit whose identity text exactly matches the fixed
allowlist of allocation primitives and that appears as a callee (a key of the
Backward Index) is added to the Visited Set by the Seed Classifier, and is
therefore never a member of the Taint Set after propagation, regardless of
graph shape. -/
theorem c1_allowlist_whitelisted (am : List (MonoItem × List (Spanned MonoItem)))
    (u : Instance) (lst : List (Spanned Instance))
    (hmem : (u, lst) ∈ (analyze am).backward) (hallow : isAllowName u.name = true) :
    u ∈ (analyze am).seedsVisited ∧ u ∉ (analyze am).infallible := by
  have hvis : u ∈ classifySeeds (buildGraph am).1 (buildGraph am).2 :=
    classify_mem_self _ _ u lst hmem (Or.inr hallow)
  exact ⟨hvis, propagate_visited_not_tainted (buildGraph am).2 _ _ _ _ u hvis
    (Finset.not_mem_empty u)⟩

/-- C1 witness: the amended statement evaluated on `exAm1`. -/
theorem c1_witness :
    ((exRustAlloc, [{ node := exMain, span := Span.pos 1 }])
        ∈ (analyze exAm1).backward ∧ isAllowName exRustAlloc.name = true) ∧
    (exRustAlloc ∈ (analyze exAm1).seedsVisited ∧
      exRustAlloc ∉ (analyze exAm1).infallible) :=
  ⟨⟨by decide, by decide⟩,
    c1_allowlist_whitelisted exAm1 exRustAlloc
      [{ node := exMain, span := Span.pos 1 }] (by decide) (by decide)⟩

/-- C2 counterexample: `exX`'s identity contains `"assume_fallible"` and `exC`
is one of `exX`'s direct callers (it is in `exX`'s backward list), yet the
Seed Classifier does NOT add `exC` to the Visited Set, and `exC` ends up in
the Taint Set after propagation (via the `alloc`-leaf `exE`).  Line 82 of the
source iterates `forward.get(&accessee)` — the unit's callees, not its
callers. -/
theorem c2_counterexample :
    containsSub exX.name "assume_fallible" = true ∧
    ({ node := exC, span := Span.pos 1 } : Spanned Instance)
      ∈ lookupList (analyze exAm2).backward exX ∧
    exC ∉ (analyze exAm2).seedsVisited ∧
    exC ∈ (analyze exAm2).infallible := by
  refine ⟨by decide, by decide, by decide, by decide⟩

/-- C2 (amended): for every Unit X appearing as a callee whose identity text
contains `"assume_fallible"`, the Seed Classifier adds X itself and every
target of X's outgoing Forward-Index edges (X's direct CALLEES) to the
Visited Set, so that none of them is ever added to the Taint Set by
propagation. -/
theorem c2_marker_whitelists_callees (am : List (MonoItem × List (Spanned MonoItem)))
    (x : Instance) (lst : List (Spanned Instance))
    (hmem : (x, lst) ∈ (analyze am).backward)
    (hmark : containsSub x.name "assume_fallible" = true) :
    (x ∈ (analyze am).seedsVisited ∧
      ∀ s ∈ lookupList (analyze am).forward x, s.node ∈ (analyze am).seedsVisited) ∧
    (x ∉ (analyze am).infallible ∧
      ∀ s ∈ lookupList (analyze am).forward x, s.node ∉ (analyze am).infallible) := by
  have hx : x ∈ classifySeeds (buildGraph am).1 (buildGraph am).2 :=
    classify_mem_self _ _ x lst hmem (Or.inl hmark)
  have hcallees : ∀ s ∈ lookupList (buildGraph am).1 x,
      s.node ∈ classifySeeds (buildGraph am).1 (buildGraph am).2 :=
    fun s hs => classify_mem_callees _ _ x lst hmem hmark s hs
  refine ⟨⟨hx, hcallees⟩, ?_, ?_⟩
  · exact propagate_visited_not_tainted (buildGraph am).2 _ _ _ _ x hx
      (Finset.not_mem_empty x)
  · intro s hs
    exact propagate_visited_not_tainted (buildGraph am).2 _ _ _ _ s.node
      (hcallees s hs) (Finset.not_mem_empty s.node)

/-- C2 witness: the amended statement evaluated on `exAm2` (marker unit `exX`
with callee `exD`). -/
theorem c2_witness :
    ((exX, [{ node := exC, span := Span.pos 1 }]) ∈ (analyze exAm2).backward ∧
      containsSub exX.name "assume_fallible" = true) ∧
    (exX ∈ (analyze exAm2).seedsVisited ∧ exD ∈ (analyze exAm2).seedsVisited ∧
      exX ∉ (analyze exAm2).infallible ∧ exD ∉ (analyze exAm2).infallible) := by
  have h := c2_marker_whitelists_callees exAm2 exX
    [{ node := exC, span := Span.pos 1 }] (by decide) (by decide)
  exact ⟨⟨by decide, by decide⟩, h.1.1,
    h.1.2 { node := exD, span := Span.pos 3 } (by decide), h.2.1,
    h.2.2 { node := exD, span := Span.pos 3 } (by decide)⟩

/-- C3: the reporter emits one diagnostic per stored forward edge occurrence
whose caller is local and tainted and whose callee is external and tainted,
and nothing else; the diagnostic's primary span is that edge's span.  Stated
as: projecting each diagnostic to (accessor, accessee, primary span) yields
exactly the qualifying edge occurrences of the Forward Index, in order. -/
theorem c3_report_iff (fwd bwd : Graph) (inf : Finset Instance) :
    (reportDiags fwd bwd inf).map (fun d => (d.accessor, d.accessee, d.span))
      = (occs fwd).filter (qualifies inf) := by
  unfold reportDiags occs
  exact report_spec_aux fwd bwd inf fwd

/-- C4 counterexample: accessor `exA`'s accessee list contains a unit that is
neither a function nor a static (`MonoItem.otherItem`), yet the edge to the
earlier accessee `exB` IS recorded in both indices — contradicting "contributes
no edges at all (not even edges for accessees listed before the offending
one)". -/
theorem c4_counterexample :
    monoInstance MonoItem.otherItem = none ∧
    lookupList (buildGraph exAm4).1 exA = [{ node := exB, span := Span.pos 1 }] ∧
    lookupList (buildGraph exAm4).2 exB = [{ node := exA, span := Span.pos 1 }] := by
  refine ⟨rfl, by decide, by decide⟩

/-- C4 (amended): when an accessor's accessee list contains an accessee that
is neither a plain callable nor a static initializer, processing of that
accessor's list stops at the first such accessee: the resulting indices are
exactly those obtained from the prefix before it (edges for earlier accessees
are kept; the offending accessee and everything after it contribute nothing),
and no error is raised. -/
theorem c4_truncation_at_bad_accessee (accessor : Instance) (bad : Spanned MonoItem)
    (hbad : monoInstance bad.node = none) (l₁ l₂ : List (Spanned MonoItem))
    (fwd bwd : Graph) :
    processAccessees accessor fwd bwd (l₁ ++ bad :: l₂)
      = processAccessees accessor fwd bwd l₁ :=
  processAccessees_truncates accessor bad hbad l₁ l₂ fwd bwd

/-- C4 witness: the amended statement evaluated on `exAm4`'s accessee list. -/
theorem c4_witness :
    monoInstance MonoItem.otherItem = none ∧
    processAccessees exA [] []
        ([{ node := MonoItem.fn exB, span := Span.pos 1 }]
          ++ { node := MonoItem.otherItem, span := Span.pos 2 } :: [])
      = processAccessees exA [] [] [{ node := MonoItem.fn exB, span := Span.pos 1 }] :=
  ⟨rfl, c4_truncation_at_bad_accessee exA
    { node := MonoItem.otherItem, span := Span.pos 2 } rfl
    [{ node := MonoItem.fn exB, span := Span.pos 1 }] [] [] []⟩

/-- C5: a local Unit never causes expansion past itself.  Stated as graph
surgery: for a local Unit L, removing L's incoming-edge record from the
Backward Index does not change the propagation loop's behaviour at all (so no
caller of L is ever pushed, hence never tainted, because of L). -/
theorem c5_local_boundary_stop (bw : Graph) (l : Instance) (hl : l.isLocal = true)
    (fuel : Nat) (wl : List Instance) (vis inf : Finset Instance) :
    propagate bw fuel wl vis inf = propagate (eraseKey bw l) fuel wl vis inf :=
  propagate_eraseKey_local bw l hl fuel wl vis inf

/-- C5 witness: the theorem evaluated on a backward graph in which the local
unit `exL` has a recorded caller. -/
theorem c5_witness :
    exL.isLocal = true ∧
    propagate exBw5 2 [exL] ∅ ∅ = propagate (eraseKey exBw5 exL) 2 [exL] ∅ ∅ :=
  ⟨rfl, c5_local_boundary_stop exBw5 exL rfl 2 [exL] ∅ ∅⟩

/-- C6: a Unit is queued as an unconditional taint seed if and only if it
appears as a callee (a key of the Backward Index), is absent from the Forward
Index, and originates from the `alloc` crate; in particular a Unit with a
Forward-Index entry is never auto-seeded. -/
theorem c6_seed_queue_iff (fwd bwd : Graph) (u : Instance) :
    u ∈ seedQueue fwd bwd ↔
      (∃ p ∈ bwd, p.1 = u) ∧ hasKey fwd u = false ∧ u.krate = "alloc" :=
  mem_seedQueue fwd bwd u

/-- C7: after the Graph Builder, the Forward and Backward indices are exact
transposes: the multiset of stored (caller, callee, span) forward occurrences
equals the multiset of swapped (callee, caller, span) backward occurrences
(so each direction is contained in the other with the same spans), and the
total stored entry counts coincide. -/
theorem c7_transpose (am : List (MonoItem × List (Spanned MonoItem))) :
    List.Perm (occs (buildGraph am).1) ((occs (buildGraph am).2).map swapEdge) ∧
    totalLen (buildGraph am).1 = totalLen (buildGraph am).2 := by
  have h := transpose_buildGraphAux am [] [] (by simp [occs])
  refine ⟨h, ?_⟩
  have hlen := h.length_eq
  rw [occs_length, List.length_map, occs_length] at hlen
  exact hlen

/-- C8: the final Taint Set is insensitive to the order in which items are
popped from the worklist: ANY complete run of the nondeterministic propagation
step relation (pop an arbitrary element, push callers in arbitrary order) from
the initial state ends with exactly the taint set that the deterministic
stack-based loop computes. -/
theorem c8_pop_order_insensitive (bw : Graph) (q0 : List Instance)
    (v0 visF infF : Finset Instance)
    (hrun : Relation.ReflTransGen (PropStep bw) ⟨q0, v0, ∅⟩ ⟨[], visF, infF⟩) :
    infF = (propagate bw (q0.length + totalLen bw) q0 v0 ∅).1 := by
  have hb : q0.length + remCost bw v0 ≤ q0.length + totalLen bw :=
    Nat.add_le_add_left (remCost_le_totalLen bw v0) _
  have hrun2 := propagate_run bw (q0.length + totalLen bw) q0 v0 ∅ hb
  have h1 := run_inf_eq_reach hrun rfl
  have h2 := run_inf_eq_reach hrun2 rfl
  ext u
  exact (h1 u).trans (h2 u).symm

/-- C8 witness: a one-step complete run on the empty backward graph with the
single external seed `exU0`, compared with the deterministic loop. -/
theorem c8_witness :
    insert exU0 (∅ : Finset Instance)
      = (propagate [] ([exU0].length + totalLen []) [exU0] ∅ ∅).1 :=
  c8_pop_order_insensitive [] [exU0] ∅ (insert exU0 ∅) (insert exU0 ∅)
    (Relation.ReflTransGen.single
      (PropStep.expand [] [] exU0 ∅ ∅ [] (Finset.not_mem_empty _) rfl
        (by simp [lookupList])))

/-- C9 counterexample: the analysis of `exAm9` emits two diagnostics whose
closing notes differ (one has a nonempty descendant chain, the other an empty
one), so the closing note is not a fixed text identical across all
diagnostics. -/
theorem c9_counterexample :
    ((analyze exAm9).diags.map fun d => d.closing)
      = ["which may call alloc_error_handler",
         "`alloc::string::do_it` is determined to be infallible because it may call alloc_error_handler"] ∧
    ("which may call alloc_error_handler" : String)
      ≠ "`alloc::string::do_it` is determined to be infallible because it may call alloc_error_handler" := by
  refine ⟨by decide, by decide⟩

/-- C9 (amended): every emitted diagnostic's closing note is
"<lead-in> may call alloc_error_handler", where the lead-in is "which" when
the descendant chain is nonempty and "`<accessee path>` is determined to be
infallible because it" when it is empty; only the trailing phrase is fixed,
and the note is independent of the ancestor-chain notes. -/
theorem c9_closing_note (am : List (MonoItem × List (Spanned MonoItem)))
    (d : Diagnostic) (hd : d ∈ (analyze am).diags) :
    d.closing = (if d.descNotes.isEmpty then
        "`" ++ d.accessee.fullName ++ "` is determined to be infallible because it"
      else "which") ++ " may call alloc_error_handler" := by
  rcases mem_reportDiags (buildGraph am).1 (buildGraph am).2 _ d hd with ⟨a, item, rfl⟩
  exact buildDiag_closing _ _ _ a item

/-- C9 witness: the amended statement evaluated on `exAm9`'s first
diagnostic. -/
theorem c9_witness :
    exD9 ∈ (analyze exAm9).diags ∧
    exD9.closing = (if exD9.descNotes.isEmpty then
        "`" ++ exD9.accessee.fullName ++ "` is determined to be infallible because it"
      else "which") ++ " may call alloc_error_handler" :=
  ⟨by decide, c9_closing_note exAm9 exD9 (by decide)⟩

/-- C10: every accessor that is a function or a static receives a Forward
Index entry before its accessees are examined, so even an accessor whose
accessee processing is abandoned has a (possibly empty) forward entry; being a
Forward-Index key, it is exempt from the alloc-library leaf auto-seeding. -/
theorem c10_accessor_key_exempt (am : List (MonoItem × List (Spanned MonoItem)))
    (A : MonoItem) (l : List (Spanned MonoItem)) (a : Instance)
    (hmem : (A, l) ∈ am) (hconv : monoInstance A = some a) :
    hasKey (analyze am).forward a = true ∧ a ∉ (analyze am).workQueue := by
  have hkey : hasKey (buildGraph am).1 a = true :=
    buildGraphAux_accessor_key am [] [] A l a hmem hconv
  refine ⟨hkey, ?_⟩
  intro hq
  have hq' : a ∈ seedQueue (buildGraph am).1 (buildGraph am).2 := hq
  rw [mem_seedQueue] at hq'
  rw [hq'.2.1] at hkey
  cases hkey

/-- C10 witness: in `exAm10` the `alloc`-crate accessor `exA10` has its
accessee processing abandoned immediately (empty forward entry), and it is
indeed not auto-seeded. -/
theorem c10_witness :
    ((MonoItem.fn exA10, [{ node := MonoItem.otherItem, span := Span.dummy }])
        ∈ exAm10 ∧ monoInstance (MonoItem.fn exA10) = some exA10 ∧
      lookupList (analyze exAm10).forward exA10 = []) ∧
    (hasKey (analyze exAm10).forward exA10 = true ∧
      exA10 ∉ (analyze exAm10).workQueue) :=
  ⟨⟨by decide, rfl, by decide⟩,
    c10_accessor_key_exempt exAm10 (MonoItem.fn exA10)
      [{ node := MonoItem.otherItem, span := Span.dummy }] exA10 (by decide) rfl⟩

end Klint
